import Mathlib

/-!
Verification of the weight-to-resistance model, layer weight synchronization,
pot factory, result parsing and retry loop of `ltspice_mlp.py`.

Real-valued quantities are modelled as exact rationals; Python `int()` is
truncation toward zero; Python `randrange` draws are modelled by an explicit
stream of integers together with the predicate describing its possible values;
Python `IndexError` is modelled by `Option`.
-/

namespace LtspiceMlp

/-- Python `int()` conversion applied to a rational: truncation toward zero. -/
def pyInt (q : ℚ) : ℤ := if 0 ≤ q then ⌊q⌋ else ⌈q⌉

/-- Module constant `_v_in_max = 1.5`. -/
def v_in_max : ℚ := 3 / 2

/-- Module constant `_v_in_min = -1.5`. -/
def v_in_min : ℚ := -(3 / 2)

/-- Module constant `_pot_tolerance = 0.20`. -/
def pot_tolerance : ℚ := 1 / 5

/-- Module constant `_pot_tap_count = 128`. -/
def pot_tap_count : ℕ := 128

/-- Module constant `_pots_per_chip = 4`. -/
def pots_per_chip : ℕ := 4

/-- Module constant `_r_total_ohms = 5000`. -/
def r_total_ohms : ℚ := 5000

/-- State of one `DigitalPot` instance: the three constructor parameters plus
the two derived resistances mutated by `set_weight`. -/
structure DigitalPot where
  r_total_ohms : ℚ
  tap_count : ℕ
  max_weight : ℚ
  r_neg : ℚ
  r_pos : ℚ
deriving DecidableEq

/-- The wiper position computed inside `DigitalPot.set_weight` (line 142):
`min(self.tap_count-1, max(1, int((weight / self.max_weight + 1) / 2 * self.tap_count)))`. -/
def wiper_position (tap_count : ℕ) (max_weight weight : ℚ) : ℤ :=
  min ((tap_count : ℤ) - 1)
    (max 1 (pyInt ((weight / max_weight + 1) / 2 * (tap_count : ℚ))))

/-- `DigitalPot.set_weight` (lines 141-144). -/
def DigitalPot.set_weight (p : DigitalPot) (weight : ℚ) : DigitalPot :=
  let w := wiper_position p.tap_count p.max_weight weight
  let rn : ℚ := (w : ℚ) / (p.tap_count : ℚ) * p.r_total_ohms
  { p with r_neg := rn, r_pos := p.r_total_ohms - rn }

/-- `DigitalPot.__init__` (lines 133-139): stores the three constructor
parameters and performs the throw-away initialization `set_weight(0)`. -/
def DigitalPot.init (r_total : ℚ) (tap_count : ℕ) (max_weight : ℚ) : DigitalPot :=
  DigitalPot.set_weight ⟨r_total, tap_count, max_weight, 0, 0⟩ 0

theorem set_weight_eval (p : DigitalPot) (w : ℚ) :
    p.set_weight w =
      ⟨p.r_total_ohms, p.tap_count, p.max_weight,
        (wiper_position p.tap_count p.max_weight w : ℚ) / (p.tap_count : ℚ) * p.r_total_ohms,
        p.r_total_ohms -
          (wiper_position p.tap_count p.max_weight w : ℚ) / (p.tap_count : ℚ) * p.r_total_ohms⟩ :=
  rfl

theorem pyInt_of_nonneg {q : ℚ} (h : 0 ≤ q) : pyInt q = ⌊q⌋ := if_pos h

theorem pyInt_of_neg {q : ℚ} (h : q < 0) : pyInt q = ⌈q⌉ := if_neg (not_le.mpr h)

theorem pyInt_mono : Monotone pyInt := by
  intro x y hxy
  unfold pyInt
  rcases le_or_lt 0 x with hx | hx
  · rw [if_pos hx, if_pos (hx.trans hxy)]
    exact Int.floor_mono hxy
  · rw [if_neg (not_le.mpr hx)]
    rcases le_or_lt 0 y with hy | hy
    · rw [if_pos hy]
      exact le_trans (Int.ceil_le.mpr (by exact_mod_cast hx.le)) (by positivity)
    · rw [if_neg (not_le.mpr hy)]
      exact Int.ceil_mono hxy

theorem wiper_position_le_sub_one (tap_count : ℕ) (max_weight weight : ℚ) :
    wiper_position tap_count max_weight weight ≤ (tap_count : ℤ) - 1 :=
  min_le_left _ _

theorem one_le_wiper_position {tap_count : ℕ} (htap : 2 ≤ tap_count)
    (max_weight weight : ℚ) : 1 ≤ wiper_position tap_count max_weight weight := by
  refine le_min ?_ (le_max_left _ _)
  have : (2 : ℤ) ≤ (tap_count : ℤ) := by exact_mod_cast htap
  omega

theorem wiper_position_mono {tap_count : ℕ} {max_weight : ℚ} (hmw : 0 < max_weight) :
    Monotone (wiper_position tap_count max_weight) := by
  intro w1 w2 h
  unfold wiper_position
  refine min_le_min le_rfl (max_le_max le_rfl (pyInt_mono ?_))
  have htap : (0 : ℚ) ≤ (tap_count : ℚ) := Nat.cast_nonneg _
  gcongr

theorem wiper_position_of_max_le {tap_count : ℕ} {max_weight w : ℚ}
    (htap : 0 < tap_count) (hmw : 0 < max_weight) (hw : max_weight ≤ w) :
    wiper_position tap_count max_weight w = (tap_count : ℤ) - 1 := by
  unfold wiper_position
  have htapq : (0 : ℚ) < (tap_count : ℚ) := by exact_mod_cast htap
  have h1 : (1 : ℚ) ≤ w / max_weight := (one_le_div hmw).mpr hw
  have harg : (tap_count : ℚ) ≤ (w / max_weight + 1) / 2 * (tap_count : ℚ) := by
    nlinarith
  have hfl : (tap_count : ℤ) ≤ pyInt ((w / max_weight + 1) / 2 * (tap_count : ℚ)) := by
    rw [pyInt_of_nonneg (le_trans htapq.le harg)]
    exact Int.le_floor.mpr (by exact_mod_cast harg)
  have hmax : (tap_count : ℤ) - 1 ≤ max 1 (pyInt ((w / max_weight + 1) / 2 * (tap_count : ℚ))) := by
    have h2 : (tap_count : ℤ) - 1 ≤ (tap_count : ℤ) := by omega
    exact le_trans h2 (le_trans hfl (le_max_right _ _))
  exact min_eq_left hmax

theorem wiper_position_of_le_neg_max {tap_count : ℕ} {max_weight w : ℚ}
    (htap : 0 < tap_count) (hmw : 0 < max_weight) (hw : w ≤ -max_weight) :
    wiper_position tap_count max_weight w = min ((tap_count : ℤ) - 1) 1 := by
  unfold wiper_position
  have htapq : (0 : ℚ) < (tap_count : ℚ) := by exact_mod_cast htap
  have h1 : w / max_weight ≤ -1 := by
    rw [div_le_iff hmw]
    linarith
  have harg : (w / max_weight + 1) / 2 * (tap_count : ℚ) ≤ 0 := by nlinarith
  have hle : pyInt ((w / max_weight + 1) / 2 * (tap_count : ℚ)) ≤ 1 := by
    rcases lt_or_eq_of_le harg with hlt | he
    · rw [pyInt_of_neg hlt]
      have hceil : ⌈(w / max_weight + 1) / 2 * (tap_count : ℚ)⌉ ≤ (0 : ℤ) := by
        rw [Int.ceil_le]
        push_cast
        exact harg
      omega
    · rw [pyInt_of_nonneg (le_of_eq he.symm), he]
      norm_num
  rw [max_eq_left hle]

/-- Evaluation of the throw-away constructor state for the default pot
configuration: weight 0 gives the midpoint wiper 64 of 128 taps, splitting
the 5000 ohms evenly. -/
theorem init_default_eval : DigitalPot.init 5000 128 1 = ⟨5000, 128, 1, 2500, 2500⟩ := by
  rw [DigitalPot.init, set_weight_eval]
  have hw : wiper_position 128 1 0 = 64 := by
    rw [wiper_position, pyInt]
    norm_num
  rw [hw]
  norm_num

/-- Evaluation of the constructor state for a 4-tap pot. -/
theorem init_tap4_eval : DigitalPot.init 5000 4 1 = ⟨5000, 4, 1, 2500, 2500⟩ := by
  rw [DigitalPot.init, set_weight_eval]
  have hw : wiper_position 4 1 0 = 2 := by
    rw [wiper_position, pyInt]
    norm_num
  rw [hw]
  norm_num

/-- Modelled from the spec's wording of `set_weight`: identical to the source
function except that the intermediate value is rounded to the nearest integer
(the spec says `round`) instead of truncated (the source applies `int`). Used
only to compare the spec's wording against the code. -/
def DigitalPot.set_weight_spec_round (p : DigitalPot) (weight : ℚ) : DigitalPot :=
  let w := min ((p.tap_count : ℤ) - 1)
    (max 1 (round ((weight / p.max_weight + 1) / 2 * (p.tap_count : ℚ))))
  let rn : ℚ := (w : ℚ) / (p.tap_count : ℚ) * p.r_total_ohms
  { p with r_neg := rn, r_pos := p.r_total_ohms - rn }

/-- C1 fails as stated: on a 4-tap pot with `max_weight = 1` and
`weight = 3/8` the source truncates `int(2.75) = 2` where the spec's formula
rounds `round(2.75) = 3`, so the resulting resistances differ (2500 vs 3750). -/
theorem c1_counterexample :
    ((DigitalPot.init 5000 4 1).set_weight (3 / 8)).r_neg = 2500 ∧
    ((DigitalPot.init 5000 4 1).set_weight_spec_round (3 / 8)).r_neg = 3750 ∧
    (DigitalPot.init 5000 4 1).set_weight (3 / 8)
      ≠ (DigitalPot.init 5000 4 1).set_weight_spec_round (3 / 8) := by
  have e1 : ((DigitalPot.init 5000 4 1).set_weight (3 / 8)).r_neg = 2500 := by
    rw [init_tap4_eval, set_weight_eval]
    have hw : wiper_position 4 1 (3 / 8) = 2 := by
      rw [wiper_position, pyInt]
      norm_num
    rw [hw]
    norm_num
  have e2 : ((DigitalPot.init 5000 4 1).set_weight_spec_round (3 / 8)).r_neg = 3750 := by
    rw [init_tap4_eval, DigitalPot.set_weight_spec_round]
    norm_num [round_eq, min_def, max_def]
  refine ⟨e1, e2, fun h => ?_⟩
  rw [congrArg DigitalPot.r_neg h, e2] at e1
  norm_num at e1

/-- C1 amended: `set_weight` computes
`wiper = clamp(int_trunc((w/max_weight + 1) / 2 * tap_count), 1, tap_count-1)`
with truncation toward zero in place of the spec's `round`, sets
`r_neg = wiper/tap_count * total_resistance` and
`r_pos = total_resistance - r_neg`, and the resulting state is a pure
function of `(w, max_weight, tap_count, total_resistance)`: two pots agreeing
on those three parameters reach identical states regardless of their previous
resistances. -/
theorem c1_set_weight_formula (p q : DigitalPot) (w : ℚ)
    (h1 : p.r_total_ohms = q.r_total_ohms) (h2 : p.tap_count = q.tap_count)
    (h3 : p.max_weight = q.max_weight) :
    p.set_weight w = q.set_weight w ∧
    (p.set_weight w).r_neg =
      (wiper_position p.tap_count p.max_weight w : ℚ) / (p.tap_count : ℚ) * p.r_total_ohms ∧
    (p.set_weight w).r_pos = p.r_total_ohms - (p.set_weight w).r_neg ∧
    (p.set_weight w).r_total_ohms = p.r_total_ohms ∧
    (p.set_weight w).tap_count = p.tap_count ∧
    (p.set_weight w).max_weight = p.max_weight := by
  refine ⟨?_, rfl, rfl, rfl, rfl, rfl⟩
  rw [set_weight_eval, set_weight_eval, h1, h2, h3]

theorem c1_set_weight_formula_witness :
    (⟨5000, 128, 1, 17, 99⟩ : DigitalPot).set_weight (1 / 2)
      = (DigitalPot.init 5000 128 1).set_weight (1 / 2) :=
  (c1_set_weight_formula ⟨5000, 128, 1, 17, 99⟩ (DigitalPot.init 5000 128 1) (1 / 2)
    (by rw [init_default_eval]) (by rw [init_default_eval]) (by rw [init_default_eval])).1

/-- C5: after any `set_weight` call (and after construction, which is the
`set_weight 0` call) the two resistances are nonnegative, sum exactly to the
total resistance, and the wiper position is an integer in `[1, tap_count-1]`
re-derived from the weight alone. -/
theorem c5_pot_invariants (p : DigitalPot) (w : ℚ)
    (htap : 2 ≤ p.tap_count) (htot : 0 ≤ p.r_total_ohms) :
    (p.set_weight w).r_pos + (p.set_weight w).r_neg = p.r_total_ohms ∧
    0 ≤ (p.set_weight w).r_pos ∧ 0 ≤ (p.set_weight w).r_neg ∧
    1 ≤ wiper_position p.tap_count p.max_weight w ∧
    wiper_position p.tap_count p.max_weight w ≤ (p.tap_count : ℤ) - 1 ∧
    (p.set_weight w).r_neg =
      (wiper_position p.tap_count p.max_weight w : ℚ) / (p.tap_count : ℚ) * p.r_total_ohms ∧
    DigitalPot.init p.r_total_ohms p.tap_count p.max_weight =
      DigitalPot.set_weight ⟨p.r_total_ohms, p.tap_count, p.max_weight, 0, 0⟩ 0 := by
  have hw1 := one_le_wiper_position htap p.max_weight w
  have hw2 := wiper_position_le_sub_one p.tap_count p.max_weight w
  set v := wiper_position p.tap_count p.max_weight w with hv
  have htapq : (0 : ℚ) < (p.tap_count : ℚ) := by
    have : 0 < p.tap_count := by omega
    exact_mod_cast this
  have hvq0 : (0 : ℚ) ≤ (v : ℚ) := by exact_mod_cast le_trans Int.one_nonneg hw1
  have hvtap : (v : ℚ) ≤ (p.tap_count : ℚ) := by
    have : v ≤ (p.tap_count : ℤ) := le_trans hw2 (by omega)
    exact_mod_cast this
  have hdiv1 : (v : ℚ) / (p.tap_count : ℚ) ≤ 1 := div_le_one_of_le hvtap htapq.le
  have hrn0 : 0 ≤ (v : ℚ) / (p.tap_count : ℚ) * p.r_total_ohms :=
    mul_nonneg (div_nonneg hvq0 htapq.le) htot
  have hrn1 : (v : ℚ) / (p.tap_count : ℚ) * p.r_total_ohms ≤ p.r_total_ohms := by
    calc (v : ℚ) / (p.tap_count : ℚ) * p.r_total_ohms ≤ 1 * p.r_total_ohms :=
        mul_le_mul_of_nonneg_right hdiv1 htot
    _ = p.r_total_ohms := one_mul _
  rw [set_weight_eval]
  refine ⟨by ring, by simpa using sub_nonneg.mpr hrn1, hrn0, hw1, hw2, rfl, rfl⟩

theorem c5_pot_invariants_witness :
    2 ≤ (DigitalPot.init 5000 128 1).tap_count ∧
    ((DigitalPot.init 5000 128 1).set_weight (1 / 3)).r_pos
        + ((DigitalPot.init 5000 128 1).set_weight (1 / 3)).r_neg
      = (DigitalPot.init 5000 128 1).r_total_ohms :=
  ⟨by rw [init_default_eval]; norm_num,
   (c5_pot_invariants (DigitalPot.init 5000 128 1) (1 / 3)
      (by rw [init_default_eval]; norm_num)
      (by rw [init_default_eval]; norm_num)).1⟩

/-- C6: weights beyond the saturation bound are clamped: any weight above
`max_weight` produces exactly the state of `set_weight max_weight`, and any
weight below `-max_weight` exactly the state of `set_weight (-max_weight)`. -/
theorem c6_out_of_range_clamped (p : DigitalPot) (w : ℚ)
    (hmw : 0 < p.max_weight) (htap : 0 < p.tap_count) :
    (p.max_weight < w → p.set_weight w = p.set_weight p.max_weight) ∧
    (w < -p.max_weight → p.set_weight w = p.set_weight (-p.max_weight)) := by
  constructor
  · intro hw
    rw [set_weight_eval, set_weight_eval,
      wiper_position_of_max_le htap hmw hw.le,
      wiper_position_of_max_le htap hmw le_rfl]
  · intro hw
    rw [set_weight_eval, set_weight_eval,
      wiper_position_of_le_neg_max htap hmw hw.le,
      wiper_position_of_le_neg_max htap hmw le_rfl]

theorem c6_out_of_range_clamped_witness :
    (DigitalPot.init 5000 128 1).set_weight 10 = (DigitalPot.init 5000 128 1).set_weight 1 ∧
    (DigitalPot.init 5000 128 1).set_weight (-10)
      = (DigitalPot.init 5000 128 1).set_weight (-1) := by
  have h := c6_out_of_range_clamped (DigitalPot.init 5000 128 1) 10
    (by rw [init_default_eval]; norm_num) (by rw [init_default_eval]; norm_num)
  have h' := c6_out_of_range_clamped (DigitalPot.init 5000 128 1) (-10)
    (by rw [init_default_eval]; norm_num) (by rw [init_default_eval]; norm_num)
  have e : (DigitalPot.init 5000 128 1).max_weight = 1 := by rw [init_default_eval]
  constructor
  · have := h.1 (by rw [e]; norm_num)
    rwa [e] at this
  · have := h'.2 (by rw [e]; norm_num)
    rwa [e] at this

/-- C4 fails as stated: for the default pot, increasing the weight from
`-max_weight` to `+max_weight` strictly decreases `r_pos`, and at
`w = -max_weight` the resistance sits mostly on the positive branch
(`r_neg < r_pos`), the opposite of the claimed direction. -/
theorem c4_counterexample :
    (-1 : ℚ) < 1 ∧
    ((DigitalPot.init 5000 128 1).set_weight 1).r_pos
      < ((DigitalPot.init 5000 128 1).set_weight (-1)).r_pos ∧
    ((DigitalPot.init 5000 128 1).set_weight (-1)).r_neg
      < ((DigitalPot.init 5000 128 1).set_weight (-1)).r_pos := by
  have hhi : wiper_position 128 1 1 = 127 := by
    rw [wiper_position, pyInt]
    norm_num
  have hlo : wiper_position 128 1 (-1) = 1 := by
    rw [wiper_position, pyInt]
    norm_num
  rw [init_default_eval, set_weight_eval, set_weight_eval]
  rw [hhi, hlo]
  norm_num

/-- C4 amended: for a fixed pot with positive saturation weight, at least two
taps and nonnegative total resistance, `r_pos` is non-increasing (and `r_neg`
non-decreasing) as the weight increases; `weight = -max_weight` puts most
resistance on the positive branch and `weight = +max_weight` puts most
resistance on the negative branch. -/
theorem c4_r_pos_antitone (p : DigitalPot) (w1 w2 : ℚ)
    (hmw : 0 < p.max_weight) (htap : 2 ≤ p.tap_count) (htot : 0 ≤ p.r_total_ohms) :
    (w1 ≤ w2 →
      (p.set_weight w2).r_pos ≤ (p.set_weight w1).r_pos ∧
      (p.set_weight w1).r_neg ≤ (p.set_weight w2).r_neg) ∧
    (p.set_weight (-p.max_weight)).r_neg ≤ (p.set_weight (-p.max_weight)).r_pos ∧
    (p.set_weight p.max_weight).r_pos ≤ (p.set_weight p.max_weight).r_neg := by
  have htap0 : 0 < p.tap_count := by omega
  have htapq : (0 : ℚ) < (p.tap_count : ℚ) := by exact_mod_cast htap0
  have htapq2 : (2 : ℚ) ≤ (p.tap_count : ℚ) := by exact_mod_cast htap
  constructor
  · intro h
    have hw : wiper_position p.tap_count p.max_weight w1
        ≤ wiper_position p.tap_count p.max_weight w2 := wiper_position_mono hmw h
    have hwq : ((wiper_position p.tap_count p.max_weight w1 : ℤ) : ℚ)
        ≤ ((wiper_position p.tap_count p.max_weight w2 : ℤ) : ℚ) := by exact_mod_cast hw
    have hrn : (wiper_position p.tap_count p.max_weight w1 : ℚ) / (p.tap_count : ℚ)
          * p.r_total_ohms
        ≤ (wiper_position p.tap_count p.max_weight w2 : ℚ) / (p.tap_count : ℚ)
          * p.r_total_ohms :=
      mul_le_mul_of_nonneg_right ((div_le_div_right htapq).mpr hwq) htot
    rw [set_weight_eval, set_weight_eval]
    exact ⟨by simpa using sub_le_sub_left hrn _, hrn⟩
  · have hlo : wiper_position p.tap_count p.max_weight (-p.max_weight)
        = min ((p.tap_count : ℤ) - 1) 1 := wiper_position_of_le_neg_max htap0 hmw le_rfl
    have hhi : wiper_position p.tap_count p.max_weight p.max_weight
        = (p.tap_count : ℤ) - 1 := wiper_position_of_max_le htap0 hmw le_rfl
    have hmin : min ((p.tap_count : ℤ) - 1) 1 = 1 := by
      have : (2 : ℤ) ≤ (p.tap_count : ℤ) := by exact_mod_cast htap
      omega
    rw [set_weight_eval, set_weight_eval, hlo, hhi, hmin]
    have hfrac : (1 : ℚ) / (p.tap_count : ℚ) ≤ 1 / 2 := by
      rw [div_le_div_iff htapq (by norm_num)]
      linarith
    have hne : (p.tap_count : ℚ) ≠ 0 := ne_of_gt htapq
    constructor
    · have h1 : (1 : ℚ) / (p.tap_count : ℚ) * p.r_total_ohms ≤ 1 / 2 * p.r_total_ohms :=
        mul_le_mul_of_nonneg_right hfrac htot
      push_cast
      linarith
    · have h2 : (1 : ℚ) ≤ 2 * ((p.tap_count : ℚ) - 1) / (p.tap_count : ℚ) := by
        rw [le_div_iff htapq]
        linarith
      have h3 : 1 * p.r_total_ohms
          ≤ 2 * ((p.tap_count : ℚ) - 1) / (p.tap_count : ℚ) * p.r_total_ohms :=
        mul_le_mul_of_nonneg_right h2 htot
      have h4 : 2 * (((p.tap_count : ℚ) - 1) / (p.tap_count : ℚ) * p.r_total_ohms)
          = 2 * ((p.tap_count : ℚ) - 1) / (p.tap_count : ℚ) * p.r_total_ohms := by
        ring
      push_cast
      linarith

theorem c4_r_pos_antitone_witness :
    ((DigitalPot.init 5000 128 1).set_weight (1 / 2)).r_pos
      ≤ ((DigitalPot.init 5000 128 1).set_weight 0).r_pos :=
  (((c4_r_pos_antitone (DigitalPot.init 5000 128 1) 0 (1 / 2)
      (by rw [init_default_eval]; norm_num)
      (by rw [init_default_eval]; norm_num)
      (by rw [init_default_eval]; norm_num)).1) (by norm_num)).1

/-! ### The circuit layer: pot grid construction and weight synchronization -/

/-- One indexing step `self.digital_pots[j][i]` followed by the in-place
mutation `set_weight`; a Python `IndexError` is `none`. -/
def setPot (m : List (List DigitalPot)) (j i : ℕ) (f : DigitalPot → DigitalPot) :
    Option (List (List DigitalPot)) :=
  (m[j]?).bind fun row => (row[i]?).map fun p => m.set j (row.set i (f p))

/-- The inner loop of `update_synapse_weights` (line 54-55): for a fixed input
index `i`, iterate `j` over `range(0, neuron_count-1)` performing
`digital_pots[j][i].set_weight(synaptic_weights[j][i])`. -/
def inner_pass (nc : ℕ) (weights : ℕ → ℕ → ℚ) (i : ℕ) (m : List (List DigitalPot)) :
    Option (List (List DigitalPot)) :=
  (List.range (nc - 1)).foldlM (fun m2 j => setPot m2 j i fun p => p.set_weight (weights j i)) m

/-- The double loop of `update_synapse_weights` (lines 53-55): `i` over
`range(0, inputs_per_neuron-1)`, `j` over `range(0, neuron_count-1)`. -/
def update_pots (ipn nc : ℕ) (weights : ℕ → ℕ → ℚ) (pots : List (List DigitalPot)) :
    Option (List (List DigitalPot)) :=
  (List.range (ipn - 1)).foldlM (fun m i => inner_pass nc weights i m) pots

/-- The pot grid of `MLP_Circuit_Layer.__init__` (line 46): a list of
`inputs_per_neuron` rows of `neuron_count` freshly initialized pots
(in this helper all with the same total resistance). -/
def mkDigitalPots (ipn nc : ℕ) (r_total : ℚ) (tap : ℕ) (mw : ℚ) :
    List (List DigitalPot) :=
  (List.range ipn).map fun _ => (List.range nc).map fun _ => DigitalPot.init r_total tap mw

/-- The mutable state of one `MLP_Circuit_Layer`. -/
structure MLP_Circuit_Layer where
  inputs_per_neuron : ℕ
  neuron_count : ℕ
  synaptic_weights : ℕ → ℕ → ℚ
  max_weight : ℚ
  digital_pots : List (List DigitalPot)
  synapses_r_neg : List (List ℚ)
  synapses_r_pos : List (List ℚ)

/-- `MLP_Circuit_Layer.update_synapse_weights` (lines 52-60). After the double
loop, line 58 assigns the matrix of `r_neg` read-backs to `synapses_r_neg`,
and line 60 is the chained assignment
`self.synapses_r_pos = self.synapses_r_neg = asarray([[x.r_pos ...]])`,
which overwrites `synapses_r_neg` with the `r_pos` matrix, so both fields
end up holding the `r_pos` read-backs. -/
def MLP_Circuit_Layer.update_synapse_weights (L : MLP_Circuit_Layer) :
    Option MLP_Circuit_Layer :=
  (update_pots L.inputs_per_neuron L.neuron_count L.synaptic_weights L.digital_pots).map
    fun pots =>
      { L with
        digital_pots := pots
        synapses_r_neg := pots.map fun row => row.map DigitalPot.r_pos
        synapses_r_pos := pots.map fun row => row.map DigitalPot.r_pos }

/-- Result of reading grid entry `[j][i]` out of an optional pot grid. -/
def pot_entry (m : Option (List (List DigitalPot))) (j i : ℕ) : Option DigitalPot :=
  m.bind fun g => (g[j]?).bind fun row => row[i]?

theorem set_weight_one_default_r_neg :
    ((DigitalPot.init 5000 128 1).set_weight 1).r_neg = 79375 / 16 := by
  rw [init_default_eval, set_weight_eval]
  have hw : wiper_position 128 1 1 = 127 := by
    rw [wiper_position, pyInt]
    norm_num
  rw [hw]
  norm_num

theorem set_weight_one_default_r_pos :
    ((DigitalPot.init 5000 128 1).set_weight 1).r_pos = 625 / 16 := by
  rw [init_default_eval, set_weight_eval]
  have hw : wiper_position 128 1 1 = 127 := by
    rw [wiper_position, pyInt]
    norm_num
  rw [hw]
  norm_num

/-- The weight matrix used in the C2 scenario: `synaptic_weights[0][1] = 1`,
all other entries `0` (indexed `[neuron][input]`). -/
def c2_weights : ℕ → ℕ → ℚ := fun n i => if n = 0 ∧ i = 1 then 1 else 0

/-- C2 as a code bug, shown on a layer with 3 inputs and 2 neurons whose only
nonzero weight is `synaptic_weights[0][1]` (neuron 0, input 1): the loop body
`digital_pots[j][i]` uses the neuron index as the first (input) dimension, so
the weight lands in the pot at grid position `[0][1]` (input 0, neuron 1)
while the pot at `[1][0]` (input 1, neuron 0) — the one the claim says is
updated — keeps its construction-time resistance; moreover on a layer with 2
inputs and 4 neurons the same loop indexes the outer dimension out of bounds
and the update raises `IndexError` instead of updating anything. -/
theorem c2_update_hits_transposed_pot :
    (pot_entry (update_pots 3 2 c2_weights (mkDigitalPots 3 2 5000 128 1)) 0 1).map
        DigitalPot.r_neg = some (79375 / 16) ∧
    (pot_entry (update_pots 3 2 c2_weights (mkDigitalPots 3 2 5000 128 1)) 1 0).map
        DigitalPot.r_neg = some 2500 ∧
    (79375 / 16 : ℚ) ≠ 2500 ∧
    update_pots 2 4 c2_weights (mkDigitalPots 2 4 5000 128 1) = none := by
  refine ⟨?_, ?_, by norm_num, rfl⟩
  · have h : (pot_entry (update_pots 3 2 c2_weights (mkDigitalPots 3 2 5000 128 1)) 0 1).map
        DigitalPot.r_neg = some (((DigitalPot.init 5000 128 1).set_weight 1).r_neg) := rfl
    rw [h, set_weight_one_default_r_neg]
  · have h : (pot_entry (update_pots 3 2 c2_weights (mkDigitalPots 3 2 5000 128 1)) 1 0).map
        DigitalPot.r_neg = some ((DigitalPot.init 5000 128 1).r_neg) := rfl
    rw [h, init_default_eval]

/-- Entry `[i][j]` of the `synapses_r_neg` matrix of an optional layer. -/
def layer_r_neg_entry (L : Option MLP_Circuit_Layer) (i j : ℕ) : Option ℚ :=
  L.bind fun l => (l.synapses_r_neg[i]?).bind fun row => row[j]?

/-- Entry `[i][j]` of the `synapses_r_pos` matrix of an optional layer. -/
def layer_r_pos_entry (L : Option MLP_Circuit_Layer) (i j : ℕ) : Option ℚ :=
  L.bind fun l => (l.synapses_r_pos[i]?).bind fun row => row[j]?

/-- Grid entry `[i][j]` of the `digital_pots` array of an optional layer. -/
def layer_pot_entry (L : Option MLP_Circuit_Layer) (i j : ℕ) : Option DigitalPot :=
  L.bind fun l => (l.digital_pots[i]?).bind fun row => row[j]?

/-- The weight matrix of the C3 scenario: `synaptic_weights[0][0] = 1`, all
other entries `0`. -/
def c3_weights : ℕ → ℕ → ℚ := fun n i => if n = 0 ∧ i = 0 then 1 else 0

/-- The 2-input, 2-neuron layer of the C3 scenario. -/
def c3_layer : MLP_Circuit_Layer :=
  { inputs_per_neuron := 2
    neuron_count := 2
    synaptic_weights := c3_weights
    max_weight := 1
    digital_pots := mkDigitalPots 2 2 5000 128 1
    synapses_r_neg := []
    synapses_r_pos := [] }

/-- C3 as a code bug: on the 2-input, 2-neuron layer whose updated pot `[0][0]`
holds `r_neg = 79375/16` and `r_pos = 625/16`, the matrix read-back of
`update_synapse_weights` leaves `synapses_r_neg[0][0] = 625/16` — the pot's
`r_pos`, not its `r_neg` — because the chained assignment of line 60
overwrites the `r_neg` matrix computed on line 58. The `r_pos` half of the
claim does hold. -/
theorem c3_r_neg_matrix_holds_r_pos :
    layer_r_neg_entry c3_layer.update_synapse_weights 0 0 = some (625 / 16) ∧
    (layer_pot_entry c3_layer.update_synapse_weights 0 0).map DigitalPot.r_neg
      = some (79375 / 16) ∧
    layer_r_pos_entry c3_layer.update_synapse_weights 0 0 = some (625 / 16) ∧
    (625 / 16 : ℚ) ≠ 79375 / 16 := by
  refine ⟨?_, ?_, ?_, by norm_num⟩
  · have h : layer_r_neg_entry c3_layer.update_synapse_weights 0 0
        = some (((DigitalPot.init 5000 128 1).set_weight 1).r_pos) := rfl
    rw [h, set_weight_one_default_r_pos]
  · have h : (layer_pot_entry c3_layer.update_synapse_weights 0 0).map DigitalPot.r_neg
        = some (((DigitalPot.init 5000 128 1).set_weight 1).r_neg) := rfl
    rw [h, set_weight_one_default_r_neg]
  · have h : layer_r_pos_entry c3_layer.update_synapse_weights 0 0
        = some (((DigitalPot.init 5000 128 1).set_weight 1).r_pos) := rfl
    rw [h, set_weight_one_default_r_pos]

/-! ### Bounds analysis of the weight-synchronization loop (C10) -/

/-- Dimensions of the pot grid as built on line 46: the outer list has one
row per input, each row one pot per neuron. -/
def grid_dims (m : List (List DigitalPot)) (ipn nc : ℕ) : Prop :=
  m.length = ipn ∧ ∀ row ∈ m, row.length = nc

theorem mkDigitalPots_dims (ipn nc : ℕ) (r_total : ℚ) (tap : ℕ) (mw : ℚ) :
    grid_dims (mkDigitalPots ipn nc r_total tap mw) ipn nc := by
  constructor
  · simp [mkDigitalPots]
  · intro row hrow
    simp only [mkDigitalPots, List.mem_map] at hrow
    obtain ⟨_, _, rfl⟩ := hrow
    simp

theorem setPot_some_dims {m : List (List DigitalPot)} {ipn nc j i : ℕ}
    (f : DigitalPot → DigitalPot) (hd : grid_dims m ipn nc) (hj : j < ipn) (hi : i < nc) :
    ∃ m', setPot m j i f = some m' ∧ grid_dims m' ipn nc := by
  obtain ⟨hlen, hrows⟩ := hd
  have hj' : j < m.length := by omega
  have hrl : m[j].length = nc := hrows _ (List.getElem_mem hj')
  have hi' : i < m[j].length := by omega
  refine ⟨m.set j (m[j].set i (f m[j][i])), ?_, ?_, ?_⟩
  · rw [setPot, List.getElem?_eq_getElem hj', Option.some_bind,
      List.getElem?_eq_getElem hi']
    rfl
  · rw [List.length_set]
    exact hlen
  · intro r hr
    rcases List.mem_or_eq_of_mem_set hr with h | h
    · exact hrows _ h
    · subst h
      rw [List.length_set]
      exact hrl

theorem setPot_none_of_row_oob {m : List (List DigitalPot)} {ipn nc j i : ℕ}
    {f : DigitalPot → DigitalPot} (hd : grid_dims m ipn nc) (hj : ipn ≤ j) :
    setPot m j i f = none := by
  obtain ⟨hlen, _⟩ := hd
  rw [setPot, List.getElem?_eq_none (by omega : m.length ≤ j)]
  rfl

theorem setPot_none_of_col_oob {m : List (List DigitalPot)} {ipn nc j i : ℕ}
    {f : DigitalPot → DigitalPot} (hd : grid_dims m ipn nc) (hi : nc ≤ i) :
    setPot m j i f = none := by
  rw [setPot]
  cases hrow : m[j]? with
  | none => rfl
  | some row =>
    have hrl : row.length = nc := hd.2 _ (List.getElem?_mem hrow)
    rw [Option.some_bind, List.getElem?_eq_none (by omega : row.length ≤ i)]
    rfl

theorem setPot_dims_of_some {m m' : List (List DigitalPot)} {ipn nc j i : ℕ}
    {f : DigitalPot → DigitalPot} (hd : grid_dims m ipn nc)
    (h : setPot m j i f = some m') : grid_dims m' ipn nc := by
  rw [setPot] at h
  rcases Option.bind_eq_some.mp h with ⟨row, hrow, h2⟩
  rcases Option.map_eq_some'.mp h2 with ⟨p, _, hm'⟩
  subst hm'
  refine ⟨by rw [List.length_set]; exact hd.1, ?_⟩
  intro r hr
  rcases List.mem_or_eq_of_mem_set hr with h | h
  · exact hd.2 _ h
  · subst h
    rw [List.length_set]
    exact hd.2 _ (List.getElem?_mem hrow)

theorem inner_fold_some {ipn nc : ℕ} (weights : ℕ → ℕ → ℚ) (i : ℕ) (hi : i < nc) :
    ∀ (js : List ℕ) (m : List (List DigitalPot)), grid_dims m ipn nc →
      (∀ j ∈ js, j < ipn) →
      ∃ m', js.foldlM (fun m2 j => setPot m2 j i fun p => p.set_weight (weights j i)) m
          = some m' ∧ grid_dims m' ipn nc := by
  intro js
  induction js with
  | nil => exact fun m hd _ => ⟨m, rfl, hd⟩
  | cons j js ih =>
    intro m hd hall
    obtain ⟨m1, h1, hd1⟩ := setPot_some_dims
      (fun p => p.set_weight (weights j i)) hd (hall j (by simp)) hi
    obtain ⟨m', h', hd'⟩ := ih m1 hd1 fun x hx => hall x (by simp [hx])
    refine ⟨m', ?_, hd'⟩
    simp only [List.foldlM_cons, h1]
    exact h'

theorem inner_fold_none_of_big_j {ipn nc : ℕ} (weights : ℕ → ℕ → ℚ) (i : ℕ) (hi : i < nc) :
    ∀ (js : List ℕ) (m : List (List DigitalPot)), grid_dims m ipn nc →
      (∃ j ∈ js, ipn ≤ j) →
      js.foldlM (fun m2 j => setPot m2 j i fun p => p.set_weight (weights j i)) m = none := by
  intro js
  induction js with
  | nil => exact fun m _ hex => absurd hex (by simp)
  | cons j js ih =>
    intro m hd hex
    by_cases hj : j < ipn
    · obtain ⟨m1, h1, hd1⟩ := setPot_some_dims
        (f := fun p => p.set_weight (weights j i)) hd hj hi
      obtain ⟨j0, hj0mem, hj0⟩ := hex
      have hj0tail : j0 ∈ js := by
        rcases List.mem_cons.mp hj0mem with h | h
        · omega
        · exact h
      simp only [List.foldlM_cons, h1]
      exact ih m1 hd1 ⟨j0, hj0tail, hj0⟩
    · simp only [List.foldlM_cons]
      rw [setPot_none_of_row_oob hd (by omega : ipn ≤ j)]
      rfl

theorem inner_fold_none_of_big_i {ipn nc : ℕ} (weights : ℕ → ℕ → ℚ) (i : ℕ) (hi : nc ≤ i)
    (j : ℕ) (js : List ℕ) (m : List (List DigitalPot)) (hd : grid_dims m ipn nc) :
    (j :: js).foldlM (fun m2 j => setPot m2 j i fun p => p.set_weight (weights j i)) m
      = none := by
  simp only [List.foldlM_cons]
  rw [setPot_none_of_col_oob hd hi]
  rfl

theorem inner_pass_some {ipn nc : ℕ} (weights : ℕ → ℕ → ℚ) (i : ℕ) (hi : i < nc)
    (hjall : ∀ j ∈ List.range (nc - 1), j < ipn) (m : List (List DigitalPot))
    (hd : grid_dims m ipn nc) :
    ∃ m', inner_pass nc weights i m = some m' ∧ grid_dims m' ipn nc :=
  inner_fold_some weights i hi (List.range (nc - 1)) m hd hjall

theorem inner_pass_none_of_big_i {ipn nc : ℕ} (weights : ℕ → ℕ → ℚ) (i : ℕ)
    (hi : nc ≤ i) (hnc : 2 ≤ nc) (m : List (List DigitalPot)) (hd : grid_dims m ipn nc) :
    inner_pass nc weights i m = none := by
  have hsplit : nc - 1 = (nc - 2) + 1 := by omega
  rw [inner_pass, hsplit, List.range_succ_eq_map]
  exact inner_fold_none_of_big_i weights i hi 0 _ m hd

theorem outer_fold_some {ipn nc : ℕ} (weights : ℕ → ℕ → ℚ)
    (hjall : ∀ j ∈ List.range (nc - 1), j < ipn) :
    ∀ (is : List ℕ) (m : List (List DigitalPot)), grid_dims m ipn nc →
      (∀ i ∈ is, i < nc) →
      ∃ m', is.foldlM (fun m i => inner_pass nc weights i m) m = some m'
        ∧ grid_dims m' ipn nc := by
  intro is
  induction is with
  | nil => exact fun m hd _ => ⟨m, rfl, hd⟩
  | cons i is ih =>
    intro m hd hall
    obtain ⟨m1, h1, hd1⟩ := inner_pass_some weights i (hall i (by simp)) hjall m hd
    obtain ⟨m', h', hd'⟩ := ih m1 hd1 fun x hx => hall x (by simp [hx])
    refine ⟨m', ?_, hd'⟩
    simp only [List.foldlM_cons, h1]
    exact h'

theorem outer_fold_none_of_big_i {ipn nc : ℕ} (weights : ℕ → ℕ → ℚ) (hnc : 2 ≤ nc)
    (hjall : ∀ j ∈ List.range (nc - 1), j < ipn) :
    ∀ (is : List ℕ) (m : List (List DigitalPot)), grid_dims m ipn nc →
      (∃ i ∈ is, nc ≤ i) →
      is.foldlM (fun m i => inner_pass nc weights i m) m = none := by
  intro is
  induction is with
  | nil => exact fun m _ hex => absurd hex (by simp)
  | cons i is ih =>
    intro m hd hex
    by_cases hi : i < nc
    · obtain ⟨m1, h1, hd1⟩ := inner_pass_some weights i hi hjall m hd
      obtain ⟨i0, hi0mem, hi0⟩ := hex
      have hi0tail : i0 ∈ is := by
        rcases List.mem_cons.mp hi0mem with h | h
        · omega
        · exact h
      simp only [List.foldlM_cons, h1]
      exact ih m1 hd1 ⟨i0, hi0tail, hi0⟩
    · simp only [List.foldlM_cons]
      rw [inner_pass_none_of_big_i weights i (by omega) hnc m hd]
      rfl

/-- C10 fails as stated for degenerate layers: with 1 input per neuron and 3
neurons we have `neuron_count - 1 > inputs_per_neuron`, yet no out-of-bounds
access happens because the outer loop `range(0, inputs_per_neuron-1)` is
empty, so the update succeeds (and updates nothing). -/
theorem c10_counterexample :
    (1 : ℕ) < 3 - 1 ∧
    update_pots 1 3 (fun _ _ => 0) (mkDigitalPots 1 3 5000 128 1)
      = some (mkDigitalPots 1 3 5000 128 1) :=
  ⟨by norm_num, rfl⟩

/-- C10 amended: the loop indexes the pot grid with the neuron index first
although the grid is built input-index first. When `inputs_per_neuron ≤ 1`
the loop body never runs and no access occurs; when `inputs_per_neuron ≥ 2`
and `neuron_count - 1 > inputs_per_neuron` the first index runs off the outer
dimension and the update fails with an out-of-bounds access; and when both
loops run (`inputs_per_neuron ≥ 2`, `neuron_count ≥ 2`) the update stays in
bounds exactly when `neuron_count - 1 ≤ inputs_per_neuron` and
`inputs_per_neuron - 1 ≤ neuron_count`. -/
theorem c10_loop_bounds (ipn nc : ℕ) (weights : ℕ → ℕ → ℚ)
    (pots : List (List DigitalPot)) (hd : grid_dims pots ipn nc) :
    (ipn ≤ 1 → update_pots ipn nc weights pots = some pots) ∧
    (2 ≤ ipn → ipn < nc - 1 → update_pots ipn nc weights pots = none) ∧
    (2 ≤ ipn → 2 ≤ nc →
      ((update_pots ipn nc weights pots).isSome
        ↔ nc - 1 ≤ ipn ∧ ipn - 1 ≤ nc)) := by
  have hnone_of_wide : 2 ≤ ipn → ipn < nc - 1 → update_pots ipn nc weights pots = none := by
    intro h2 hlt
    have hsplit : ipn - 1 = (ipn - 2) + 1 := by omega
    rw [update_pots, hsplit, List.range_succ_eq_map]
    simp only [List.foldlM_cons]
    have hinner : inner_pass nc weights 0 pots = none := by
      rw [inner_pass]
      exact inner_fold_none_of_big_j weights 0 (by omega) _ pots hd
        ⟨ipn, List.mem_range.mpr (by omega), le_rfl⟩
    rw [hinner]
    rfl
  have hnone_of_tall : 2 ≤ nc → nc < ipn - 1 → nc - 1 ≤ ipn →
      update_pots ipn nc weights pots = none := by
    intro hnc hlt hb
    rw [update_pots]
    exact outer_fold_none_of_big_i weights hnc
      (fun j hj => by
        have := List.mem_range.mp hj
        omega)
      _ pots hd ⟨nc, List.mem_range.mpr (by omega), le_rfl⟩
  refine ⟨?_, hnone_of_wide, ?_⟩
  · intro h1
    have hz : ipn - 1 = 0 := by omega
    rw [update_pots, hz]
    rfl
  · intro h2 hnc
    constructor
    · intro hsome
      have hb1 : nc - 1 ≤ ipn := by
        by_contra hno
        rw [hnone_of_wide h2 (by omega)] at hsome
        exact absurd hsome (by simp)
      refine ⟨hb1, ?_⟩
      by_contra hno
      rw [hnone_of_tall hnc (by omega) hb1] at hsome
      exact absurd hsome (by simp)
    · rintro ⟨hb1, hb2⟩
      obtain ⟨m', h', _⟩ := outer_fold_some weights
        (fun j hj => by
          have := List.mem_range.mp hj
          omega)
        (List.range (ipn - 1)) pots hd
        (fun i hi => by
          have := List.mem_range.mp hi
          omega)
      rw [update_pots, h']
      rfl

theorem c10_loop_bounds_witness :
    (update_pots 3 3 (fun _ _ => 0) (mkDigitalPots 3 3 5000 128 1)).isSome
      ↔ 3 - 1 ≤ 3 ∧ 3 - 1 ≤ 3 :=
  (c10_loop_bounds 3 3 (fun _ _ => 0) (mkDigitalPots 3 3 5000 128 1)
    (mkDigitalPots_dims 3 3 5000 128 1)).2.2 (by norm_num) (by norm_num)

/-! ### The pot factory and chip-grouped tolerance draws -/

/-- State of one `DigitalPotFactory` instance (lines 148-155). -/
structure DigitalPotFactory where
  r_total_ohms : ℚ
  tap_count : ℕ
  tolerance : ℚ
  pots_per_chip : ℕ
  pot_counter : ℕ
  chip_resistance : ℚ

/-- `DigitalPotFactory.__init__` (lines 149-155): the slot counter starts at 1
and the chip resistance at the nominal total. -/
def DigitalPotFactory.make (r_total : ℚ) (tap : ℕ) (ppc : ℕ) (tol : ℚ) :
    DigitalPotFactory :=
  ⟨r_total, tap, tol, ppc, 1, r_total⟩

/-- The set of values Python `randrange(a, b)` can return: the integers of
`[a, b)`, the upper bound excluded. -/
def randrange_values (a b n : ℤ) : Prop := a ≤ n ∧ n < b

instance (a b n : ℤ) : Decidable (randrange_values a b n) :=
  inferInstanceAs (Decidable (a ≤ n ∧ n < b))

/-- The first argument the factory passes to `randrange` on line 159:
`int((1.0 - tolerance) * r_total_ohms)`. -/
def DigitalPotFactory.draw_lo (f : DigitalPotFactory) : ℤ :=
  pyInt ((1 - f.tolerance) * f.r_total_ohms)

/-- The second argument the factory passes to `randrange` on line 159:
`int((1.0 + tolerance) * r_total_ohms)`. -/
def DigitalPotFactory.draw_hi (f : DigitalPotFactory) : ℤ :=
  pyInt ((1 + f.tolerance) * f.r_total_ohms)

/-- `DigitalPotFactory.pot` (lines 157-163) with the `randrange` result
supplied as the explicit argument `draw`: returns the updated factory, the
created pot, and whether this call consumed a draw (i.e. called `randrange`,
which happens exactly when the slot counter sits at 1). -/
def DigitalPotFactory.pot (f : DigitalPotFactory) (draw : ℤ) (max_weight : ℚ) :
    DigitalPotFactory × DigitalPot × Bool :=
  let r : ℚ := if f.pot_counter = 1 then (draw : ℚ) else f.chip_resistance
  let counter := if f.pot_counter < f.pots_per_chip then f.pot_counter + 1 else 1
  ({ f with chip_resistance := r, pot_counter := counter },
    DigitalPot.init r f.tap_count max_weight,
    f.pot_counter == 1)

/-- Factory state after `n` pot creations against the draw stream `draws`,
together with the number of draws consumed so far. -/
def potSeqState (f : DigitalPotFactory) (draws : ℕ → ℤ) (mw : ℚ) : ℕ → DigitalPotFactory × ℕ
  | 0 => (f, 0)
  | n + 1 =>
    let s := potSeqState f draws mw n
    let r := s.1.pot (draws s.2) mw
    (r.1, if r.2.2 then s.2 + 1 else s.2)

/-- The `n`-th pot (0-based) created by the factory against the draw stream. -/
def potAt (f : DigitalPotFactory) (draws : ℕ → ℤ) (mw : ℚ) (n : ℕ) : DigitalPot :=
  ((potSeqState f draws mw n).1.pot (draws (potSeqState f draws mw n).2) mw).2.1

/-- Whether the creation of the `n`-th pot consumed a fresh `randrange` draw. -/
def potDrew (f : DigitalPotFactory) (draws : ℕ → ℤ) (mw : ℚ) (n : ℕ) : Bool :=
  ((potSeqState f draws mw n).1.pot (draws (potSeqState f draws mw n).2) mw).2.2

theorem pot_proj (f : DigitalPotFactory) (draw : ℤ) (mw : ℚ) :
    (f.pot draw mw).1.pot_counter
        = (if f.pot_counter < f.pots_per_chip then f.pot_counter + 1 else 1) ∧
    (f.pot draw mw).1.chip_resistance
        = (if f.pot_counter = 1 then (draw : ℚ) else f.chip_resistance) ∧
    (f.pot draw mw).1.pots_per_chip = f.pots_per_chip ∧
    (f.pot draw mw).1.tap_count = f.tap_count ∧
    (f.pot draw mw).1.tolerance = f.tolerance ∧
    (f.pot draw mw).1.r_total_ohms = f.r_total_ohms ∧
    (f.pot draw mw).2.2 = (f.pot_counter == 1) ∧
    (f.pot draw mw).2.1
        = DigitalPot.init (if f.pot_counter = 1 then (draw : ℚ) else f.chip_resistance)
            f.tap_count mw :=
  ⟨rfl, rfl, rfl, rfl, rfl, rfl, rfl, rfl⟩

theorem potSeqState_invariant (f : DigitalPotFactory) (draws : ℕ → ℤ) (mw : ℚ) (k : ℕ)
    (hk : 0 < k) (hc : f.pot_counter = 1) (hppc : f.pots_per_chip = k) :
    ∀ n : ℕ,
      (potSeqState f draws mw n).1.pot_counter = n % k + 1 ∧
      (potSeqState f draws mw n).2 = (n + k - 1) / k ∧
      (potSeqState f draws mw n).1.pots_per_chip = k ∧
      (potSeqState f draws mw n).1.tap_count = f.tap_count ∧
      (potSeqState f draws mw n).1.r_total_ohms = f.r_total_ohms ∧
      (potSeqState f draws mw n).1.tolerance = f.tolerance ∧
      (0 < n →
        (potSeqState f draws mw n).1.chip_resistance = (draws ((n - 1) / k) : ℚ)) := by
  intro n
  induction n with
  | zero =>
    refine ⟨?_, ?_, hppc, rfl, rfl, rfl, fun h => absurd h (by omega)⟩
    · show f.pot_counter = 0 % k + 1
      rw [Nat.zero_mod, hc]
    · show 0 = (0 + k - 1) / k
      rw [Nat.div_eq_of_lt (by omega)]
  | succ n ih =>
    obtain ⟨hcount, hdraws, hppc', htap', hrt', htol', hchip⟩ := ih
    have hq := Nat.div_add_mod n k
    set q := n / k with hq_def
    set r := n % k with hr_def
    have hrlt : r < k := Nat.mod_lt _ hk
    set g := (potSeqState f draws mw n).1 with hg
    set d := (potSeqState f draws mw n).2 with hd2
    obtain ⟨e_count, e_chip, e_ppc, e_tap, e_tol, e_rt, e_drew, e_pot⟩ :=
      pot_proj g (draws d) mw
    have hmod : (n + 1) % k = (r + 1) % k := by
      have h : n + 1 = r + 1 + k * q := by omega
      rw [h, Nat.mul_comm, Nat.add_mul_mod_self_right]
    have hgoal_chip_idx : (n + 1 - 1) / k = q := rfl
    by_cases hr0 : r = 0
    · -- the slot counter sits at 1: this creation draws afresh
      have hcount1 : g.pot_counter = 1 := by omega
      have hdrew : (g.pot (draws d) mw).2.2 = true := by
        rw [e_drew, hcount1]
        rfl
      have hd_eq : d = q := by
        rw [hdraws]
        have h1 : n + k - 1 = k * q + (k - 1) := by omega
        rw [h1, Nat.mul_add_div hk, Nat.div_eq_of_lt (by omega)]
        omega
      have hd1_eq : (n + 1 + k - 1) / k = q + 1 := by
        have h1 : n + 1 + k - 1 = k * q + k := by omega
        rw [h1, Nat.mul_add_div hk, Nat.div_self hk]
      refine ⟨?_, ?_, ?_, ?_, ?_, ?_, ?_⟩
      · show (g.pot (draws d) mw).1.pot_counter = (n + 1) % k + 1
        rw [e_count, hcount1, hppc', hmod, hr0]
        rcases Nat.lt_or_ge 1 k with h1k | h1k
        · rw [if_pos h1k, Nat.mod_eq_of_lt h1k]
        · have hk1 : k = 1 := by omega
          rw [hk1]
          rfl
      · show (if (g.pot (draws d) mw).2.2 then d + 1 else d) = (n + 1 + k - 1) / k
        rw [hdrew, if_pos rfl, hd_eq, hd1_eq]
      · show (g.pot (draws d) mw).1.pots_per_chip = k
        rw [e_ppc, hppc']
      · show (g.pot (draws d) mw).1.tap_count = f.tap_count
        rw [e_tap, htap']
      · show (g.pot (draws d) mw).1.r_total_ohms = f.r_total_ohms
        rw [e_rt, hrt']
      · show (g.pot (draws d) mw).1.tolerance = f.tolerance
        rw [e_tol, htol']
      · intro _
        show (g.pot (draws d) mw).1.chip_resistance = (draws ((n + 1 - 1) / k) : ℚ)
        rw [e_chip, if_pos hcount1, hd_eq, hgoal_chip_idx]
    · -- the slot counter is above 1: the chip resistance is reused
      have hr1 : 1 ≤ r := by omega
      have hne1 : ¬ g.pot_counter = 1 := by omega
      have hdrew : (g.pot (draws d) mw).2.2 = false := by
        rw [e_drew]
        exact beq_eq_false_iff_ne.mpr hne1
      have hd_eq : d = q + 1 := by
        rw [hdraws]
        have h1 : n + k - 1 = k * q + (r - 1 + k) := by omega
        have h2 : (r - 1 + k) / k = 1 := by
          rw [Nat.add_div_right _ hk, Nat.div_eq_of_lt (by omega)]
        rw [h1, Nat.mul_add_div hk, h2]
      have hd1_eq : (n + 1 + k - 1) / k = q + 1 := by
        have h1 : n + 1 + k - 1 = k * q + (r + k) := by omega
        have h2 : (r + k) / k = 1 := by
          rw [Nat.add_div_right _ hk, Nat.div_eq_of_lt hrlt]
        rw [h1, Nat.mul_add_div hk, h2]
      have hprev_idx : (n - 1) / k = q := by
        have h1 : n - 1 = k * q + (r - 1) := by omega
        rw [h1, Nat.mul_add_div hk, Nat.div_eq_of_lt (by omega)]
        omega
      refine ⟨?_, ?_, ?_, ?_, ?_, ?_, ?_⟩
      · show (g.pot (draws d) mw).1.pot_counter = (n + 1) % k + 1
        rw [e_count, hcount, hppc', hmod]
        by_cases hlast : r + 1 < k
        · rw [if_pos hlast, Nat.mod_eq_of_lt hlast]
        · have hreq : r + 1 = k := by omega
          rw [if_neg hlast, hreq, Nat.mod_self]
      · show (if (g.pot (draws d) mw).2.2 then d + 1 else d) = (n + 1 + k - 1) / k
        rw [hdrew, if_neg (by simp), hd_eq, hd1_eq]
      · show (g.pot (draws d) mw).1.pots_per_chip = k
        rw [e_ppc, hppc']
      · show (g.pot (draws d) mw).1.tap_count = f.tap_count
        rw [e_tap, htap']
      · show (g.pot (draws d) mw).1.r_total_ohms = f.r_total_ohms
        rw [e_rt, hrt']
      · show (g.pot (draws d) mw).1.tolerance = f.tolerance
        rw [e_tol, htol']
      · intro _
        show (g.pot (draws d) mw).1.chip_resistance = (draws ((n + 1 - 1) / k) : ℚ)
        rw [e_chip, if_neg hne1, hchip (by omega), hprev_idx, hgoal_chip_idx]

theorem potAt_r_total_ohms (f : DigitalPotFactory) (draws : ℕ → ℤ) (mw : ℚ) (k : ℕ)
    (hk : 0 < k) (hc : f.pot_counter = 1) (hppc : f.pots_per_chip = k) (n : ℕ) :
    (potAt f draws mw n).r_total_ohms = (draws (n / k) : ℚ) := by
  obtain ⟨hcount, hdraws, hppc', htap', hrt', htol', hchip⟩ :=
    potSeqState_invariant f draws mw k hk hc hppc n
  have hq := Nat.div_add_mod n k
  set q := n / k with hq_def
  set r := n % k with hr_def
  have hrlt : r < k := Nat.mod_lt _ hk
  set g := (potSeqState f draws mw n).1 with hg
  set d := (potSeqState f draws mw n).2 with hd2
  obtain ⟨_, e_chip, _, _, _, _, _, e_pot⟩ := pot_proj g (draws d) mw
  show (g.pot (draws d) mw).2.1.r_total_ohms = (draws q : ℚ)
  rw [e_pot]
  show (if g.pot_counter = 1 then ((draws d : ℤ) : ℚ) else g.chip_resistance) = (draws q : ℚ)
  by_cases hr0 : r = 0
  · have hcount1 : g.pot_counter = 1 := by omega
    have hd_eq : d = q := by
      rw [hdraws]
      have h1 : n + k - 1 = k * q + (k - 1) := by omega
      rw [h1, Nat.mul_add_div hk, Nat.div_eq_of_lt (by omega)]
      omega
    rw [if_pos hcount1, hd_eq]
  · have hne1 : ¬ g.pot_counter = 1 := by omega
    have hprev : (n - 1) / k = q := by
      have h1 : n - 1 = k * q + (r - 1) := by omega
      rw [h1, Nat.mul_add_div hk, Nat.div_eq_of_lt (by omega)]
      omega
    rw [if_neg hne1, hchip (by omega), hprev]

theorem potDrew_iff (f : DigitalPotFactory) (draws : ℕ → ℤ) (mw : ℚ) (k : ℕ)
    (hk : 0 < k) (hc : f.pot_counter = 1) (hppc : f.pots_per_chip = k) (n : ℕ) :
    potDrew f draws mw n = true ↔ n % k = 0 := by
  obtain ⟨hcount, _, _, _, _, _, _⟩ :=
    potSeqState_invariant f draws mw k hk hc hppc n
  set g := (potSeqState f draws mw n).1 with hg
  set d := (potSeqState f draws mw n).2 with hd2
  obtain ⟨_, _, _, _, _, _, e_drew, _⟩ := pot_proj g (draws d) mw
  show (g.pot (draws d) mw).2.2 = true ↔ n % k = 0
  rw [e_drew, hcount, beq_iff_eq]
  omega

/-- The module-level factory `DigitalPotFactory(_r_total_ohms, _pot_tap_count,
_pots_per_chip, _pot_tolerance)` created in `MLP_Circuit.__init__` (line 182). -/
def default_factory : DigitalPotFactory :=
  DigitalPotFactory.make r_total_ohms pot_tap_count pots_per_chip pot_tolerance

/-- C8 fails as stated: the code draws with `randrange(int(0.8*5000),
int(1.2*5000)) = randrange(4000, 6000)`, whose possible values are the
integers of `[4000, 5999]`; the upper endpoint `6000 = r_total*(1+tolerance)`
of the interval the claim says the draw is uniform over is never produced
(nor is any non-integer value), so the draw is not uniform over
`[r_total*(1-tolerance), r_total*(1+tolerance)]`. -/
theorem c8_counterexample :
    default_factory.draw_lo = 4000 ∧
    default_factory.draw_hi = 6000 ∧
    default_factory.r_total_ohms * (1 + default_factory.tolerance) = 6000 ∧
    ¬ randrange_values default_factory.draw_lo default_factory.draw_hi 6000 := by
  have hlo : default_factory.draw_lo = 4000 := by
    show pyInt ((1 - pot_tolerance) * r_total_ohms) = 4000
    rw [pot_tolerance, r_total_ohms, pyInt]
    norm_num
  have hhi : default_factory.draw_hi = 6000 := by
    show pyInt ((1 + pot_tolerance) * r_total_ohms) = 6000
    rw [pot_tolerance, r_total_ohms, pyInt]
    norm_num
  refine ⟨hlo, hhi, ?_, ?_⟩
  · show r_total_ohms * (1 + pot_tolerance) = 6000
    rw [pot_tolerance, r_total_ohms]
    norm_num
  · rw [hlo, hhi]
    intro h
    exact absurd h.2 (by norm_num)

/-- C8 amended: starting from a fresh factory with `pots_per_chip = k`, every
aligned group of `k` consecutively created pots shares the single drawn chip
resistance (pot `n*k + i` carries draw `n`); a `randrange` call happens at a
pot creation exactly when the rotating slot counter sits at its first
position (equivalently at pots numbered `n*k`); the draw arguments are
`int((1-tolerance)*r_total)` and `int((1+tolerance)*r_total)` and stay the
same at every creation; and if every draw obeys the `randrange` contract
(an integer in `[lo, hi)`), every created pot's total resistance is an
integer in `[lo, hi)`. -/
theorem c8_chip_grouping (f : DigitalPotFactory) (draws : ℕ → ℤ) (mw : ℚ) (k : ℕ)
    (hk : 0 < k) (hc : f.pot_counter = 1) (hppc : f.pots_per_chip = k) :
    (∀ n i, i < k → (potAt f draws mw (n * k + i)).r_total_ohms = (draws n : ℚ)) ∧
    (∀ n, potDrew f draws mw n = true ↔ n % k = 0) ∧
    f.draw_lo = pyInt ((1 - f.tolerance) * f.r_total_ohms) ∧
    f.draw_hi = pyInt ((1 + f.tolerance) * f.r_total_ohms) ∧
    (∀ n, (potSeqState f draws mw n).1.draw_lo = f.draw_lo ∧
          (potSeqState f draws mw n).1.draw_hi = f.draw_hi) ∧
    ((∀ m, randrange_values f.draw_lo f.draw_hi (draws m)) →
      ∀ n, (f.draw_lo : ℚ) ≤ (potAt f draws mw n).r_total_ohms ∧
           (potAt f draws mw n).r_total_ohms < (f.draw_hi : ℚ)) := by
  refine ⟨?_, fun n => potDrew_iff f draws mw k hk hc hppc n, rfl, rfl, ?_, ?_⟩
  · intro n i hi
    rw [potAt_r_total_ohms f draws mw k hk hc hppc]
    have hdiv : (n * k + i) / k = n := by
      have h1 : n * k + i = k * n + i := by ring
      rw [h1, Nat.mul_add_div hk, Nat.div_eq_of_lt hi]
      omega
    rw [hdiv]
  · intro n
    obtain ⟨_, _, _, _, hrt', htol', _⟩ :=
      potSeqState_invariant f draws mw k hk hc hppc n
    constructor
    · show pyInt ((1 - (potSeqState f draws mw n).1.tolerance)
          * (potSeqState f draws mw n).1.r_total_ohms) = f.draw_lo
      rw [htol', hrt']
      rfl
    · show pyInt ((1 + (potSeqState f draws mw n).1.tolerance)
          * (potSeqState f draws mw n).1.r_total_ohms) = f.draw_hi
      rw [htol', hrt']
      rfl
  · intro hdr n
    rw [potAt_r_total_ohms f draws mw k hk hc hppc]
    obtain ⟨h1, h2⟩ := hdr (n / k)
    exact ⟨by exact_mod_cast h1, by exact_mod_cast h2⟩

theorem c8_chip_grouping_witness :
    (potAt default_factory (fun _ => (4321 : ℤ)) 1 (1 * 4 + 2)).r_total_ohms
      = ((4321 : ℤ) : ℚ) :=
  (c8_chip_grouping default_factory (fun _ => (4321 : ℤ)) 1 4
    (by norm_num) rfl rfl).1 1 2 (by norm_num)

/-! ### Result parsing, output normalization and the retry loop -/

/-- The normalization of line 345: `(v + v_in_max) / (2 * v_in_max)`. -/
def normalize_output (vmax v : ℚ) : ℚ := (v + vmax) / (2 * vmax)

/-- The per-layer node loop of `get_outputs` (lines 333-342): look the nodes
up one after the other; the first node whose pattern is absent from the
result log (`find i = none`) aborts the whole parse. -/
def read_nodes (find : ℕ → Option ℚ) : List ℕ → Option (List ℚ)
  | [] => some []
  | i :: is =>
    match find i with
    | none => none
    | some v =>
      match read_nodes find is with
      | none => none
      | some vs => some (v :: vs)

/-- The layer loop of `get_outputs` (lines 330-345): each layer contributes
the list of its nodes' extracted voltages run through the normalization of
line 345; `find` maps (layer index, node index) to the voltage extracted
from the result log, `none` when the node's pattern is absent. -/
def read_layers (vmax : ℚ) (find : ℕ → ℕ → Option ℚ) : List (ℕ × ℕ) → Option (List (List ℚ))
  | [] => some []
  | (l, c) :: rest =>
    match read_nodes (find l) (List.range c) with
    | none => none
    | some vs =>
      match read_layers vmax find rest with
      | none => none
      | some rs => some (vs.map (normalize_output vmax) :: rs)

/-- Same traversal without the normalization step: the raw extracted
voltages. Used to state that `get_outputs` is exactly the raw parse followed
by per-voltage normalization. -/
def read_layers_raw (find : ℕ → ℕ → Option ℚ) : List (ℕ × ℕ) → Option (List (List ℚ))
  | [] => some []
  | (l, c) :: rest =>
    match read_nodes (find l) (List.range c) with
    | none => none
    | some vs =>
      match read_layers_raw find rest with
      | none => none
      | some rs => some (vs :: rs)

/-- `MLP_Circuit.get_outputs` (lines 324-349) over the layer output-node
counts: returns the success flag and the optional activation matrix. -/
def get_outputs (vmax : ℚ) (find : ℕ → ℕ → Option ℚ) (counts : List ℕ) :
    Bool × Option (List (List ℚ)) :=
  match read_layers vmax find counts.enum with
  | none => (false, none)
  | some rs => (true, some rs)

/-- The retry loop of `MLP_Circuit.think` (lines 366-371):
`while success == False and attempts > 0: run_simulation(); success, outputs
= get_outputs(); attempts -= 1`. The first component counts the
`run_simulation` invocations performed, the second is the final `outputs`. -/
def think_loop (outcome : ℕ → Bool × Option (List (List ℚ))) :
    ℕ → ℕ → Option (List (List ℚ)) → ℕ × Option (List (List ℚ))
  | 0, calls, outputs => (calls, outputs)
  | attempts + 1, calls, _outputs =>
    let r := outcome calls
    if r.1 then (calls + 1, r.2) else think_loop outcome attempts (calls + 1) r.2

/-- `MLP_Circuit.think` (lines 351-375), from the point where the netlist has
been written: 5 attempts, each invoking the simulator once and reparsing the
result file (whose contents on attempt `a` are abstracted by `find a`). -/
def think (vmax : ℚ) (find : ℕ → ℕ → ℕ → Option ℚ) (counts : List ℕ) :
    ℕ × Option (List (List ℚ)) :=
  think_loop (fun attempt => get_outputs vmax (find attempt) counts) 5 0 none

theorem read_nodes_none {find : ℕ → Option ℚ} :
    ∀ {is : List ℕ} {i : ℕ}, i ∈ is → find i = none → read_nodes find is = none := by
  intro is
  induction is with
  | nil =>
    intro i h _
    exact absurd h (by simp)
  | cons j js ih =>
    intro i hmem hnone
    rw [read_nodes]
    rcases List.mem_cons.mp hmem with h | h
    · subst h
      rw [hnone]
    · cases hj : find j with
      | none => rfl
      | some v =>
        rw [ih h hnone]

theorem read_layers_none {vmax : ℚ} {find : ℕ → ℕ → Option ℚ} :
    ∀ {pairs : List (ℕ × ℕ)} {l c i : ℕ}, (l, c) ∈ pairs → i < c → find l i = none →
      read_layers vmax find pairs = none := by
  intro pairs
  induction pairs with
  | nil =>
    intro l c i h _ _
    exact absurd h (by simp)
  | cons p rest ih =>
    intro l c i hmem hi hnone
    obtain ⟨pl, pc⟩ := p
    rw [read_layers]
    rcases List.mem_cons.mp hmem with h | h
    · injection h with h1 h2
      subst h1
      subst h2
      rw [read_nodes_none (List.mem_range.mpr hi) hnone]
    · cases hn : read_nodes (find pl) (List.range pc) with
      | none => rfl
      | some vs =>
        rw [ih h hi hnone]

theorem mem_enum_self (counts : List ℕ) (l : ℕ) (hl : l < counts.length) :
    (l, counts[l]) ∈ counts.enum := by
  have hl' : l < counts.enum.length := by
    rw [List.enum_length]
    exact hl
  have h := List.getElem_enum counts l hl'
  rw [← h]
  exact List.getElem_mem hl'

theorem think_loop_const_failure (outcome : ℕ → Bool × Option (List (List ℚ)))
    (hout : ∀ a, outcome a = (false, none)) :
    ∀ n calls : ℕ, think_loop outcome n calls none = (calls + n, none) := by
  intro n
  induction n with
  | zero =>
    intro calls
    rfl
  | succ n ih =>
    intro calls
    rw [think_loop, hout calls]
    show think_loop outcome n (calls + 1) none = (calls + (n + 1), none)
    rw [ih (calls + 1)]
    congr 1
    omega

/-- C7: the parse is all-or-nothing — absence of any single expected node
makes `get_outputs` report `(False, None)` — and with a result log in which
every lookup fails on every attempt, `think` runs the simulator exactly 5
times and returns no result tensor (and raises nothing: the model is a total
function). -/
theorem c7_retry_exhaustion (vmax : ℚ) (counts : List ℕ) (find : ℕ → ℕ → ℕ → Option ℚ)
    (hfail : ∀ a l i, find a l i = none) (hnode : ∃ c ∈ counts, 0 < c) :
    think vmax find counts = (5, none) ∧
    (∀ a, get_outputs vmax (find a) counts = (false, none)) ∧
    (∀ (g : ℕ → ℕ → Option ℚ) (l i : ℕ) (hl : l < counts.length),
      i < counts[l] → g l i = none → get_outputs vmax g counts = (false, none)) := by
  have hall : ∀ (g : ℕ → ℕ → Option ℚ) (l i : ℕ) (hl : l < counts.length),
      i < counts[l] → g l i = none → get_outputs vmax g counts = (false, none) := by
    intro g l i hl hi hnone
    rw [get_outputs, read_layers_none (mem_enum_self counts l hl) hi hnone]
  have hga : ∀ a, get_outputs vmax (find a) counts = (false, none) := by
    intro a
    obtain ⟨c, hcmem, hc⟩ := hnode
    obtain ⟨⟨l, hl⟩, hgeq⟩ := List.mem_iff_get.mp hcmem
    refine hall (find a) l 0 hl ?_ (hfail a l 0)
    have hgl : counts.get ⟨l, hl⟩ = counts[l] := List.get_eq_getElem counts ⟨l, hl⟩
    omega
  refine ⟨?_, hga, hall⟩
  rw [think]
  have h := think_loop_const_failure
    (fun attempt => get_outputs vmax (find attempt) counts) hga 5 0
  simpa using h

theorem c7_retry_exhaustion_witness :
    think v_in_max (fun _ _ _ => none) [2, 1] = (5, none) :=
  (c7_retry_exhaustion v_in_max [2, 1] (fun _ _ _ => none)
    (fun _ _ _ => rfl) ⟨2, by simp, by norm_num⟩).1

/-- C9: `get_outputs` is exactly the raw parse followed by the elementwise
normalization `v ↦ (v + v_in_max) / (2 * v_in_max)` of every extracted
voltage, and at the module voltage range `v_in_max = 1.5` a measured voltage
of `v_in_max` normalizes to 1, `-v_in_max` to 0, and 0 to 1/2. -/
theorem c9_normalization :
    (∀ (find : ℕ → ℕ → Option ℚ) (pairs : List (ℕ × ℕ)),
      read_layers v_in_max find pairs
        = (read_layers_raw find pairs).map
            fun rs => rs.map fun vs => vs.map (normalize_output v_in_max)) ∧
    normalize_output v_in_max v_in_max = 1 ∧
    normalize_output v_in_max (-v_in_max) = 0 ∧
    normalize_output v_in_max 0 = 1 / 2 := by
  refine ⟨?_, ?_, ?_, ?_⟩
  · intro find pairs
    induction pairs with
    | nil => rfl
    | cons p rest ih =>
      obtain ⟨l, c⟩ := p
      rw [read_layers, read_layers_raw]
      cases hn : read_nodes (find l) (List.range c) with
      | none => rfl
      | some vs =>
        rw [ih]
        cases hr : read_layers_raw find rest with
        | none => rfl
        | some rs => rfl
  · rw [normalize_output, v_in_max]
    norm_num
  · rw [normalize_output, v_in_max]
    norm_num
  · rw [normalize_output, v_in_max]
    norm_num

end LtspiceMlp
